import Mathlib

/-! twitterserver_exporter: the name classifier and the scrape loop

A shallow embedding of `main.go`.  Go strings are modelled as lists of
characters (`Str`): the keys reach `parseMetric` from `encoding/json`, which
only produces valid UTF-8, and the regular expression `rp` works rune by rune.
The `float64` carried by a metric is never computed with, so the embedding is
parametric in its type `F`.  The constructors of `client_golang` are modelled
with their checks (as from its version 0.9): `MustNewConstMetric` panics on a
descriptor that `NewDesc` found invalid, and a panic is the value `none`.
-/

namespace TwitterServerExporter

/-- A Go string, as its sequence of runes. -/
abbrev Str := List Char

/-! ## Globals (`main.go`, lines 23-27 and 40) -/

/-- The global `namespace` (a keyword of Lean, hence the underscore). -/
def namespace_ : Str := "twitterserver".toList

/-- The global `validStatNames`, in the order of the source. -/
def validStatNames : List Str :=
  ["count".toList, "sum".toList, "avg".toList, "min".toList, "max".toList,
   "stddev".toList, "p50".toList, "p90".toList, "p95".toList, "p99".toList,
   "p9990".toList, "p9999".toList]

/-- The global `bucketLabels`. -/
def bucketLabels : List Str := ["bucket".toList]

/-- The global `noLables` (spelled as in the source). -/
def noLables : List Str := []

/-- The character class of `rp`, the regular expression `[^a-zA-Z0-9_:]`:
true on the characters the expression matches. -/
def rpMatches (c : Char) : Bool :=
  !(('a' ≤ c && c ≤ 'z') || ('A' ≤ c && c ≤ 'Z') || ('0' ≤ c && c ≤ '9')
    || c == '_' || c == ':')

/-- The call `rp.ReplaceAllString(src, repl)`: `rp` matches exactly one rune
at a time, so every matched rune is replaced by `repl` and every other rune is
kept. -/
def ReplaceAllString : Str → Str → Str
  | [], _ => []
  | c :: cs, repl =>
    if rpMatches c then repl ++ ReplaceAllString cs repl
    else c :: ReplaceAllString cs repl

/-! ## The `strings` functions the classifier calls -/

/-- Go `strings.HasSuffix(s, suffix)`:
`len(s) >= len(suffix) && s[len(s)-len(suffix):] == suffix`. -/
def HasSuffix (s suffix : Str) : Bool :=
  decide (s.length ≥ suffix.length) && (s.drop (s.length - suffix.length) == suffix)

/-- The scan of `strings.Replace` for a non-empty `old`: the leftmost
occurrence of `old` is replaced by `new` and the scan resumes right after it.
Each step consumes at least one rune, so `fuel = len(s)` steps suffice. -/
def replaceLoop (old new : Str) : Nat → Str → Str
  | 0, s => s
  | fuel + 1, s =>
    if old.isPrefixOf s then new ++ replaceLoop old new fuel (s.drop old.length)
    else
      match s with
      | [] => []
      | c :: cs => c :: replaceLoop old new fuel cs

/-- Go `strings.Replace(s, old, new, -1)`, the only way the program calls it:
all non-overlapping instances of `old` are replaced by `new`, left to right.
With an empty `old`, `new` is inserted before every rune and at the end. -/
def Replace (s old new : Str) : Str :=
  if old = new then s
  else if old = [] then new ++ (s.map (fun c => c :: new)).flatten
  else replaceLoop old new s.length s

/-! ## Metric records -/

/-- The three arguments of a `prometheus.BuildFQName` call. -/
structure FQName where
  ns : Str
  subsystem : Str
  name : Str
  deriving DecidableEq

/-- The `prometheus.BuildFQName` result: the non-empty parts joined by `_`,
and the empty string when `name` is empty. -/
def FQName.build (q : FQName) : Str :=
  if q.name = [] then []
  else if q.ns ≠ [] ∧ q.subsystem ≠ [] then
    q.ns ++ '_' :: (q.subsystem ++ '_' :: q.name)
  else if q.ns ≠ [] then q.ns ++ '_' :: q.name
  else if q.subsystem ≠ [] then q.subsystem ++ '_' :: q.name
  else q.name

/-- The test of one character in `model.IsValidMetricName`, `i` being its
position: a letter, `_`, `:`, or a digit after the first position. -/
def validNameChar (i : Nat) (b : Char) : Bool :=
  ('a' ≤ b && b ≤ 'z') || ('A' ≤ b && b ≤ 'Z') || b == '_' || b == ':'
    || ('0' ≤ b && b ≤ '9' && decide (i > 0))

/-- The loop of `model.IsValidMetricName` from position `i` on. -/
def validNameFrom : Nat → Str → Bool
  | _, [] => true
  | i, b :: bs => validNameChar i b && validNameFrom (i + 1) bs

/-- The function `model.IsValidMetricName`: false on the empty string. -/
def IsValidMetricName (n : Str) : Bool :=
  !n.isEmpty && validNameFrom 0 n

/-- The test of one character in `model.LabelName.IsValid`: a letter, `_`, or
a digit after the first position. -/
def validLabelChar (i : Nat) (b : Char) : Bool :=
  ('a' ≤ b && b ≤ 'z') || ('A' ≤ b && b ≤ 'Z') || b == '_'
    || ('0' ≤ b && b ≤ '9' && decide (i > 0))

/-- The loop of `model.LabelName.IsValid` from position `i` on. -/
def validLabelFrom : Nat → Str → Bool
  | _, [] => true
  | i, b :: bs => validLabelChar i b && validLabelFrom (i + 1) bs

/-- The function `checkLabelName` of `client_golang`: a valid label name that
does not start with the reserved `__`. -/
def checkLabelName (l : Str) : Bool :=
  !l.isEmpty && validLabelFrom 0 l && !(['_', '_'].isPrefixOf l)

/-- A `prometheus.Desc`; `err` is true when `NewDesc` recorded an error in
it. -/
structure Desc where
  fqName : FQName
  help : Str
  variableLabels : List Str
  err : Bool
  deriving DecidableEq

/-- The call `prometheus.NewDesc(fqName, help, variableLabels, nil)`: the
descriptor carries an error when the qualified name is not a valid metric
name, when a label name is not valid, or when a label name is repeated. -/
def NewDesc (fqName : FQName) (help : Str) (variableLabels : List Str) : Desc :=
  { fqName := fqName, help := help, variableLabels := variableLabels,
    err := !IsValidMetricName fqName.build || !variableLabels.all checkLabelName
      || !decide variableLabels.Nodup }

/-- The `prometheus.ValueType` constants. -/
inductive ValueType where
  | CounterValue
  | GaugeValue
  | UntypedValue
  deriving DecidableEq

/-- A constant metric as `prometheus.MustNewConstMetric` builds it. -/
structure Metric (F : Type) where
  desc : Desc
  valueType : ValueType
  value : F
  labelValues : List Str
  deriving DecidableEq

/-- The call `prometheus.MustNewConstMetric(desc, valueType, value,
labelValues...)`: it panics (`none`) when the descriptor carries an error or
when the number of label values is not the number of variable labels. -/
def MustNewConstMetric {F : Type} (desc : Desc) (valueType : ValueType) (value : F)
    (labelValues : List Str) : Option (Metric F) :=
  if desc.err then none
  else if labelValues.length ≠ desc.variableLabels.length then none
  else some { desc := desc, valueType := valueType, value := value, labelValues := labelValues }

/-- The label pairs of a metric: each variable label of its descriptor with
the value given for it. -/
def Metric.labels {F : Type} (m : Metric F) : List (Str × Str) :=
  m.desc.variableLabels.zip m.labelValues

/-- The metric name the exposition shows. -/
def Metric.name {F : Type} (m : Metric F) : Str := m.desc.fqName.build

/-! ## `parseMetric` (`main.go`, lines 85-110) -/

/-- The `for _, stat := range validStatNames` loop of `parseMetric`, over the
stat names still to be tried; `metric` is the value of the variable `metric`
when the loop is entered.  The first matching stat name ends the loop; `none`
is the panic of `MustNewConstMetric`. -/
def statLoop {F : Type} (parsedKey : Str) (value : F) (metric : Metric F) :
    List Str → Option (Metric F)
  | [] => some metric
  | stat :: rest =>
    if HasSuffix parsedKey stat then
      MustNewConstMetric
        (NewDesc ⟨namespace_, [], Replace parsedKey ('_' :: stat) []⟩ [] bucketLabels)
        ValueType.GaugeValue value [stat]
    else statLoop parsedKey value metric rest

/-- The function `parseMetric`, with the list of stat names it ranges over as
a parameter; `none` is a panic of `MustNewConstMetric`, before the loop or in
it. -/
def parseMetricOver {F : Type} (stats : List Str) (name : Str) (value : F) :
    Option (Metric F) :=
  let parsedKey := ReplaceAllString name ['_']
  match MustNewConstMetric (NewDesc ⟨namespace_, [], parsedKey⟩ [] noLables)
      ValueType.GaugeValue value [] with
  | none => none
  | some metric => statLoop parsedKey value metric stats

/-- The function `parseMetric`. -/
def parseMetric {F : Type} (name : Str) (value : F) : Option (Metric F) :=
  parseMetricOver validStatNames name value

/-! ## `scrape` (`main.go`, lines 112-146) -/

/-- What `encoding/json` stores in an `interface{}`: `nil`, a `bool`, a
`float64`, a `string`, a `[]interface{}` or a `map[string]interface{}`. -/
inductive JSONValue (F : Type) where
  | null
  | bool (b : Bool)
  | number (v : F)
  | string (s : Str)
  | array (xs : List (JSONValue F))
  | object (kvs : List (Str × JSONValue F))

/-- The type assertion `v.(float64)`: the number and `ok`, or not `ok`. -/
def JSONValue.asFloat64 {F : Type} : JSONValue F → Option F
  | JSONValue.number v => some v
  | _ => none

/-- The struct `exporter`, without its mutex: `errors` is the value of the
error metric, raised by one by each `Inc()`; `duration` is the elapsed time of
the last scrape in nanoseconds (the gauge is set to it divided by
1000000000). -/
structure exporter where
  errors : Nat
  duration : Int
  deriving DecidableEq

/-- What the source system does during one scrape: `httpClient.Get` fails, or
decoding the body into `vars` fails, or `vars` is decoded; its entries are
listed in the order in which the `range` loop visits them. -/
inductive Fetch (F : Type) where
  | getFailed
  | decodeFailed
  | decoded (vars : List (Str × JSONValue F))

/-- The surroundings of one scrape: the two readings of
`time.Now().UnixNano()` and the source system's answer. -/
structure Run (F : Type) where
  start : Int
  stop : Int
  fetch : Fetch F

/-- The subtraction of two `int64`. -/
def subInt64 (a b : Int) : Int :=
  (a - b + 2 ^ 63) % 2 ^ 64 - 2 ^ 63

/-- What one scrape leaves: the exporter after it, the metrics sent to the
channel before it is closed, in order, and whether the goroutine panicked
(the deferred calls still run, then the panic, which nothing recovers, ends
the program). -/
structure Scraped (F : Type) where
  state : exporter
  sent : List (Metric F)
  panicked : Bool

/-- The `for name, v := range vars` loop of `scrape`; `ch` is the sequence of
metrics sent to the channel so far.  A panic of `parseMetric` ends the loop:
nothing is sent for that entry or for those after it. -/
def rangeLoop {F : Type} :
    List (Str × JSONValue F) → List (Metric F) → List (Metric F) × Bool
  | [], ch => (ch, false)
  | (name, v) :: rest, ch =>
    match v.asFloat64 with
    | none => rangeLoop rest ch
    | some x =>
      match parseMetric name x with
      | none => (ch, true)
      | some m => rangeLoop rest (ch ++ [m])

/-- The closure `recordErr` of `scrape` (its logging apart). -/
def recordErr (e : exporter) : exporter :=
  { e with errors := e.errors + 1 }

/-- The method `scrape`. -/
def scrape {F : Type} (e : exporter) (r : Run F) : Scraped F :=
  let (e1, out) : exporter × (List (Metric F) × Bool) :=
    match r.fetch with
    | Fetch.getFailed => (recordErr e, ([], false))
    | Fetch.decodeFailed => (recordErr e, ([], false))
    | Fetch.decoded vars => (e, rangeLoop vars [])
  { state := { e1 with duration := subInt64 r.stop r.start },
    sent := out.1, panicked := out.2 }

/-! ## Lemmas on the string functions -/

theorem ReplaceAllString_eq_map (s : Str) :
    ReplaceAllString s ['_'] = s.map (fun c => if rpMatches c then '_' else c) := by
  induction s with
  | nil => rfl
  | cons c cs ih =>
    by_cases h : rpMatches c = true
    · simp [ReplaceAllString, h, ih]
    · simp [ReplaceAllString, h, ih]

theorem rpMatches_underscore : rpMatches '_' = false := by decide

theorem ReplaceAllString_clean (s : Str) :
    ∀ c ∈ ReplaceAllString s ['_'], rpMatches c = false := by
  intro c hc
  rw [ReplaceAllString_eq_map, List.mem_map] at hc
  obtain ⟨d, _, rfl⟩ := hc
  by_cases h : rpMatches d = true
  · simp [h, rpMatches_underscore]
  · simp [h]

theorem ReplaceAllString_append (s t : Str) :
    ReplaceAllString (s ++ t) ['_'] = ReplaceAllString s ['_'] ++ ReplaceAllString t ['_'] := by
  simp [ReplaceAllString_eq_map]

theorem ReplaceAllString_of_clean (t : Str) (h : ∀ c ∈ t, rpMatches c = false) :
    ReplaceAllString t ['_'] = t := by
  induction t with
  | nil => rfl
  | cons c cs ih =>
    have hc : rpMatches c = false := h c (List.mem_cons_self _ _)
    have hcs : ∀ d ∈ cs, rpMatches d = false := fun d hd => h d (List.mem_cons_of_mem _ hd)
    simp [ReplaceAllString, hc, ih hcs]

theorem HasSuffix_iff (s t : Str) : HasSuffix s t = true ↔ t <:+ s := by
  unfold HasSuffix
  constructor
  · intro h
    simp only [Bool.and_eq_true, decide_eq_true_eq, beq_iff_eq] at h
    rw [← h.2]
    exact List.drop_suffix _ _
  · rintro ⟨p, rfl⟩
    simp

/-- Every stat name is made of characters that `rp` leaves alone. -/
theorem validStatNames_clean :
    ∀ t ∈ validStatNames, ∀ c ∈ t, rpMatches c = false := by decide

/-- No stat name contains the separator. -/
theorem validStatNames_no_underscore : ∀ t ∈ validStatNames, '_' ∉ t := by decide

/-- No stat name is a suffix of another one. -/
theorem validStatNames_suffix_free :
    ∀ t₁ ∈ validStatNames, ∀ t₂ ∈ validStatNames, t₁ <:+ t₂ → t₁ = t₂ := by decide

/-- At most one stat name is a suffix of a given string. -/
theorem validStatNames_unique_suffix (s t₁ t₂ : Str)
    (h₁ : t₁ ∈ validStatNames) (h₂ : t₂ ∈ validStatNames)
    (hs₁ : t₁ <:+ s) (hs₂ : t₂ <:+ s) : t₁ = t₂ := by
  rcases List.suffix_or_suffix_of_suffix hs₁ hs₂ with h | h
  · exact validStatNames_suffix_free t₁ h₁ t₂ h₂ h
  · exact (validStatNames_suffix_free t₂ h₂ t₁ h₁ h).symm

theorem replaceLoop_nil (old new : Str) (hold : old ≠ []) (n : Nat) :
    replaceLoop old new n [] = [] := by
  cases n with
  | zero => rfl
  | succ n =>
    cases old with
    | nil => exact absurd rfl hold
    | cons a as => simp [replaceLoop, List.isPrefixOf]

/-- Removing the occurrences of `old` adds no character. -/
theorem replaceLoop_mem (old : Str) (n : Nat) :
    ∀ (s : Str), ∀ c ∈ replaceLoop old [] n s, c ∈ s := by
  induction n with
  | zero => intro s c hc; simpa [replaceLoop] using hc
  | succ n ih =>
    intro s c hc
    unfold replaceLoop at hc
    split at hc
    · rw [List.nil_append] at hc
      exact List.mem_of_mem_drop (ih _ c hc)
    · cases s with
      | nil => simp at hc
      | cons a as =>
        simp only [List.mem_cons] at hc ⊢
        rcases hc with h | h
        · exact Or.inl h
        · exact Or.inr (ih _ c h)

/-- A scan that first meets `old` after the piece `b` keeps `b`, replaces
that occurrence and resumes on what follows it. -/
theorem replaceLoop_skip (old new : Str) (q : Str) :
    ∀ (b : Str) (n : Nat),
      (∀ b1 : Str, b1 ≠ [] → b1 <:+ b → ¬ old <+: b1 ++ (old ++ q)) →
      b.length < n →
      replaceLoop old new n (b ++ (old ++ q)) =
        b ++ (new ++ replaceLoop old new (n - b.length - 1) q) := by
  intro b
  induction b with
  | nil =>
    intro n _ hn
    cases n with
    | zero => exact absurd hn (Nat.lt_irrefl _)
    | succ n =>
      have hp : old.isPrefixOf (old ++ q) = true :=
        List.isPrefixOf_iff_prefix.mpr (List.prefix_append _ _)
      simp [replaceLoop, hp]
  | cons c cs ih =>
    intro n hfree hn
    cases n with
    | zero => exact absurd hn (Nat.not_lt_zero _)
    | succ n =>
      have hnp : old.isPrefixOf (c :: cs ++ (old ++ q)) = false := by
        rw [Bool.eq_false_iff]
        intro hp
        exact hfree (c :: cs) (List.cons_ne_nil _ _) (List.suffix_refl _)
          (List.isPrefixOf_iff_prefix.mp hp)
      have hcs : ∀ b1 : Str, b1 ≠ [] → b1 <:+ cs → ¬ old <+: b1 ++ (old ++ q) :=
        fun b1 hne hsuf => hfree b1 hne (hsuf.trans (List.suffix_cons _ _))
      have hlen : cs.length < n := by simpa using hn
      have hstep := ih n hcs hlen
      have hfuel : n + 1 - (c :: cs).length - 1 = n - cs.length - 1 := by
        simp only [List.length_cons]; omega
      rw [hfuel]
      simp only [List.cons_append] at hnp ⊢
      simp only [replaceLoop, hnp, hstep]
      simp

/-- The separator followed by a stat name does not overlap itself: after a
non-empty piece of a string free of it, it cannot start before its own
position. -/
theorem no_overlap (t b b1 q : Str) (ht : '_' ∉ t) (hb : ¬ ('_' :: t) <:+: b)
    (hne : b1 ≠ []) (hsuf : b1 <:+ b) : ¬ ('_' :: t) <+: b1 ++ ('_' :: t ++ q) := by
  rintro ⟨r, hr⟩
  rcases List.append_eq_append_iff.mp hr with ⟨a, ha, _⟩ | ⟨c, hc, hc2⟩
  · exact hb ((List.IsPrefix.isInfix ⟨a, ha.symm⟩).trans hsuf.isInfix)
  · cases b1 with
    | nil => exact hne rfl
    | cons x b0 =>
      cases c with
      | nil =>
        rw [List.append_nil] at hc
        exact hb (hc ▸ hsuf.isInfix)
      | cons y c0 =>
        simp only [List.cons_append, List.cons.injEq] at hc hc2
        have hy : y = '_' := hc2.1.symm
        apply ht
        rw [hc.2, hy]
        simp

/-- Fuel beyond the length of the string changes nothing. -/
theorem replaceLoop_fuel (old new : Str) (hold : old ≠ []) :
    ∀ (n : Nat) (s : Str), s.length ≤ n →
      replaceLoop old new n s = replaceLoop old new s.length s := by
  intro n
  induction n using Nat.strong_induction_on with
  | _ n ih =>
    intro s hs
    cases s with
    | nil => simp [replaceLoop_nil old new hold]
    | cons c cs =>
      cases n with
      | zero => simp at hs
      | succ n =>
        have hcs : cs.length ≤ n := by simpa using hs
        simp only [List.length_cons, replaceLoop]
        have hd : ((c :: cs).drop old.length).length ≤ cs.length := by
          cases old with
          | nil => exact absurd rfl hold
          | cons a as => simp
        split
        · rw [ih n (Nat.lt_succ_self n) _ (hd.trans hcs),
            ih cs.length (Nat.lt_succ_of_le hcs) _ hd]
        · rw [ih n (Nat.lt_succ_self n) _ hcs]

/-- The removal `parseMetric` performs, on a string where the separator and
the stat name first occur after the piece `b`: `b` is kept, the occurrence is
removed and the removal goes on in what follows it. -/
theorem Replace_skip (t b q : Str) (ht : '_' ∉ t) (hb : ¬ ('_' :: t) <:+: b) :
    Replace (b ++ ('_' :: t ++ q)) ('_' :: t) [] = b ++ Replace q ('_' :: t) [] := by
  have hold : ('_' :: t) ≠ [] := List.cons_ne_nil _ _
  unfold Replace
  rw [if_neg hold, if_neg hold]
  have h := replaceLoop_skip ('_' :: t) [] q b (b ++ ('_' :: t ++ q)).length
    (fun b1 hne hsuf => no_overlap t b b1 q ht hb hne hsuf) (by simp)
  have hq : q.length ≤ (b ++ ('_' :: t ++ q)).length - b.length - 1 := by
    simp
  rw [replaceLoop_fuel ('_' :: t) [] hold _ q hq] at h
  simpa using h

/-- The removal `parseMetric` performs, on a string with the separator and
the stat name at its end and nowhere else. -/
theorem Replace_strip (t b : Str) (ht : '_' ∉ t) (hb : ¬ ('_' :: t) <:+: b) :
    Replace (b ++ '_' :: t) ('_' :: t) [] = b := by
  have h := Replace_skip t b [] ht hb
  have hnil : Replace [] ('_' :: t) [] = [] := by simp [Replace, replaceLoop]
  rw [hnil] at h
  simpa using h

/-- Removing the occurrences of a non-empty `old` adds no character. -/
theorem Replace_mem (s old : Str) (hold : old ≠ []) : ∀ c ∈ Replace s old [], c ∈ s := by
  intro c hc
  unfold Replace at hc
  rw [if_neg hold, if_neg hold] at hc
  exact replaceLoop_mem old _ s c hc

/-- A raw key that ends in a stat name still ends in it once sanitized. -/
theorem sanitized_suffix (key t : Str) (ht : t ∈ validStatNames) (hend : t <:+ key) :
    t <:+ ReplaceAllString key ['_'] := by
  obtain ⟨p, rfl⟩ := hend
  rw [ReplaceAllString_append, ReplaceAllString_of_clean t (validStatNames_clean t ht)]
  exact List.suffix_append _ _

/-- The characters `rp` leaves alone are those of `[a-zA-Z0-9_:]`. -/
theorem rpMatches_eq_false_iff (c : Char) :
    rpMatches c = false ↔
      (('a' ≤ c ∧ c ≤ 'z') ∨ ('A' ≤ c ∧ c ≤ 'Z') ∨ ('0' ≤ c ∧ c ≤ '9') ∨ c = '_' ∨ c = ':') := by
  unfold rpMatches
  rw [Bool.not_eq_false_eq_eq_true]
  simp only [Bool.or_eq_true, Bool.and_eq_true, decide_eq_true_eq, beq_iff_eq, or_assoc]

theorem namespace_clean : ∀ c ∈ namespace_, rpMatches c = false := by decide

/-- The qualified name keeps to the characters of its parts and `_`. -/
theorem build_clean (q : FQName) (hns : ∀ c ∈ q.ns, rpMatches c = false)
    (hsub : ∀ c ∈ q.subsystem, rpMatches c = false)
    (hname : ∀ c ∈ q.name, rpMatches c = false) :
    ∀ c ∈ q.build, rpMatches c = false := by
  intro c hc
  have hsep : ∀ (l r : Str), (∀ d ∈ l, rpMatches d = false) → (∀ d ∈ r, rpMatches d = false) →
      c ∈ l ++ '_' :: r → rpMatches c = false := by
    intro l r hl hr hmem
    rcases List.mem_append.mp hmem with h | h
    · exact hl c h
    · rcases List.mem_cons.mp h with h | h
      · rw [h]; exact rpMatches_underscore
      · exact hr c h
  unfold FQName.build at hc
  split_ifs at hc
  · exact absurd hc (List.not_mem_nil _)
  · refine hsep q.ns (q.subsystem ++ '_' :: q.name) hns ?_ hc
    intro d hd
    rcases List.mem_append.mp hd with h | h
    · exact hsub d h
    · rcases List.mem_cons.mp h with h | h
      · rw [h]; exact rpMatches_underscore
      · exact hname d h
  · exact hsep q.ns q.name hns hname hc
  · exact hsep q.subsystem q.name hsub hname hc
  · exact hname c hc

/-! ## Lemmas on the constructors of metrics -/

theorem validNameFrom_clean :
    ∀ (n : Str) (i : Nat), 0 < i → (∀ c ∈ n, rpMatches c = false) → validNameFrom i n = true := by
  intro n
  induction n with
  | nil => intro i _ _; rfl
  | cons c cs ih =>
    intro i hi h
    have hc := (rpMatches_eq_false_iff c).mp (h c (List.mem_cons_self _ _))
    have hcs := ih (i + 1) (Nat.succ_pos i) (fun d hd => h d (List.mem_cons_of_mem _ hd))
    have hchar : validNameChar i c = true := by
      unfold validNameChar
      simp only [Bool.or_eq_true, Bool.and_eq_true, decide_eq_true_eq, beq_iff_eq]
      rcases hc with h1 | h1 | h1 | h1 | h1
      · exact Or.inl (Or.inl (Or.inl (Or.inl h1)))
      · exact Or.inl (Or.inl (Or.inl (Or.inr h1)))
      · exact Or.inr ⟨h1, hi⟩
      · exact Or.inl (Or.inl (Or.inr h1))
      · exact Or.inl (Or.inr h1)
    simp [validNameFrom, hchar, hcs]

/-- With the namespace in front, a non-empty name made of the characters `rp`
keeps is a valid metric name. -/
theorem qualified_valid (n : Str) (hn : n ≠ []) (hclean : ∀ c ∈ n, rpMatches c = false) :
    IsValidMetricName (FQName.build ⟨namespace_, [], n⟩) = true := by
  have hb : FQName.build ⟨namespace_, [], n⟩ = 't' :: ("witterserver".toList ++ '_' :: n) := by
    simp [FQName.build, hn, namespace_]
  have hrest : validNameFrom 1 ("witterserver".toList ++ '_' :: n) = true := by
    apply validNameFrom_clean _ 1 Nat.one_pos
    intro c hc
    rcases List.mem_append.mp hc with h | h
    · exact namespace_clean c (List.mem_cons_of_mem _ h)
    · rcases List.mem_cons.mp h with h | h
      · rw [h]; exact rpMatches_underscore
      · exact hclean c h
  have h0 : validNameChar 0 't' = true := by decide
  rw [hb]
  show (!(List.isEmpty ('t' :: ("witterserver".toList ++ '_' :: n))) &&
    (validNameChar 0 't' && validNameFrom 1 ("witterserver".toList ++ '_' :: n))) = true
  rw [h0, hrest]
  rfl

/-- The descriptor of a non-empty clean name carries no error, without labels
or with the label `bucket`. -/
theorem NewDesc_err_false (n : Str) (ls : List Str) (hn : n ≠ [])
    (hclean : ∀ c ∈ n, rpMatches c = false) (hls : ls = noLables ∨ ls = bucketLabels) :
    (NewDesc ⟨namespace_, [], n⟩ [] ls).err = false := by
  have hv := qualified_valid n hn hclean
  have hl : ls.all checkLabelName = true ∧ decide ls.Nodup = true := by
    rcases hls with h | h <;> subst h <;> decide
  simp [NewDesc, hv, hl.1, hl.2]

/-- The descriptor of the empty name carries an error. -/
theorem NewDesc_err_nil (ls : List Str) : (NewDesc ⟨namespace_, [], []⟩ [] ls).err = true := by
  simp [NewDesc, FQName.build, IsValidMetricName]

theorem MustNewConstMetric_nil {F : Type} (ls : List Str) (vt : ValueType) (v : F)
    (lv : List Str) :
    MustNewConstMetric (NewDesc ⟨namespace_, [], []⟩ [] ls) vt v lv = none := by
  simp [MustNewConstMetric, NewDesc_err_nil]

theorem MustNewConstMetric_plain {F : Type} (n : Str) (hn : n ≠ [])
    (hclean : ∀ c ∈ n, rpMatches c = false) (vt : ValueType) (v : F) :
    MustNewConstMetric (NewDesc ⟨namespace_, [], n⟩ [] noLables) vt v [] =
      some ⟨NewDesc ⟨namespace_, [], n⟩ [] noLables, vt, v, []⟩ := by
  simp [MustNewConstMetric, NewDesc_err_false n noLables hn hclean (Or.inl rfl)]
  rfl

theorem MustNewConstMetric_bucket {F : Type} (n : Str) (hn : n ≠ [])
    (hclean : ∀ c ∈ n, rpMatches c = false) (vt : ValueType) (v : F) (t : Str) :
    MustNewConstMetric (NewDesc ⟨namespace_, [], n⟩ [] bucketLabels) vt v [t] =
      some ⟨NewDesc ⟨namespace_, [], n⟩ [] bucketLabels, vt, v, [t]⟩ := by
  simp [MustNewConstMetric, NewDesc_err_false n bucketLabels hn hclean (Or.inr rfl)]
  rfl

/-- A metric that `MustNewConstMetric` returns is made of its arguments. -/
theorem MustNewConstMetric_some {F : Type} (d : Desc) (vt : ValueType) (v : F)
    (lv : List Str) (m : Metric F) (h : MustNewConstMetric d vt v lv = some m) :
    m = ⟨d, vt, v, lv⟩ := by
  unfold MustNewConstMetric at h
  split_ifs at h
  exact (Option.some.inj h).symm

theorem validStatNames_ne_nil : ∀ t ∈ validStatNames, t ≠ [] := by decide

/-! ## Lemmas on the stat-name loop -/

theorem statLoop_no_match {F : Type} (s : Str) (v : F) (m : Metric F) :
    ∀ stats : List Str, (∀ u ∈ stats, HasSuffix s u = false) →
      statLoop s v m stats = some m := by
  intro stats
  induction stats with
  | nil => intro _; rfl
  | cons u us ih =>
    intro h
    have hu : HasSuffix s u = false := h u (List.mem_cons_self _ _)
    simp only [statLoop, hu]
    exact ih (fun w hw => h w (List.mem_cons_of_mem _ hw))

theorem statLoop_match {F : Type} (s : Str) (v : F) (m : Metric F) (t : Str)
    (hs : HasSuffix s t = true) :
    ∀ stats : List Str, t ∈ stats → (∀ u ∈ stats, HasSuffix s u = true → u = t) →
      statLoop s v m stats =
        MustNewConstMetric (NewDesc ⟨namespace_, [], Replace s ('_' :: t) []⟩ [] bucketLabels)
          ValueType.GaugeValue v [t] := by
  intro stats
  induction stats with
  | nil => intro ht; exact absurd ht (List.not_mem_nil _)
  | cons u us ih =>
    intro ht huniq
    by_cases hu : HasSuffix s u = true
    · have hut : u = t := huniq u (List.mem_cons_self _ _) hu
      subst hut
      simp [statLoop, hu]
    · have hne : u ≠ t := fun h => hu (h ▸ hs)
      have htus : t ∈ us := by
        rcases List.mem_cons.mp ht with h | h
        · exact absurd h.symm hne
        · exact h
      simp only [statLoop, hu]
      exact ih htus (fun w hw => huniq w (List.mem_cons_of_mem _ hw))

/-- What `parseMetric` returns over any ordering of the stat names, when the
sanitized key ends in the stat name `t`: the outcome of the second
`MustNewConstMetric`. -/
theorem parseMetricOver_match {F : Type} (stats : List Str) (hperm : stats.Perm validStatNames)
    (key : Str) (v : F) (t : Str) (ht : t ∈ validStatNames)
    (hend : t <:+ ReplaceAllString key ['_']) :
    parseMetricOver stats key v =
      MustNewConstMetric
        (NewDesc ⟨namespace_, [], Replace (ReplaceAllString key ['_']) ('_' :: t) []⟩ []
          bucketLabels)
        ValueType.GaugeValue v [t] := by
  have hne : ReplaceAllString key ['_'] ≠ [] := by
    intro h
    rw [h] at hend
    exact validStatNames_ne_nil t ht (List.suffix_nil.mp hend)
  unfold parseMetricOver
  simp only [MustNewConstMetric_plain _ hne (ReplaceAllString_clean key)]
  exact statLoop_match _ v _ t ((HasSuffix_iff _ _).mpr hend) stats (hperm.mem_iff.mpr ht)
    (fun u hu hsu => validStatNames_unique_suffix _ u t (hperm.mem_iff.mp hu) ht
      ((HasSuffix_iff _ _).mp hsu) hend)

/-- What `parseMetric` returns over any ordering of the stat names, when the
sanitized key ends in no stat name: the outcome of the first
`MustNewConstMetric`. -/
theorem parseMetricOver_no_match {F : Type} (stats : List Str)
    (hperm : stats.Perm validStatNames) (key : Str) (v : F)
    (hnone : ∀ t ∈ validStatNames, ¬ t <:+ ReplaceAllString key ['_']) :
    parseMetricOver stats key v =
      MustNewConstMetric (NewDesc ⟨namespace_, [], ReplaceAllString key ['_']⟩ [] noLables)
        ValueType.GaugeValue v [] := by
  show (match MustNewConstMetric (NewDesc ⟨namespace_, [], ReplaceAllString key ['_']⟩ []
      noLables) ValueType.GaugeValue v [] with
    | none => none
    | some metric => statLoop (ReplaceAllString key ['_']) v metric stats) = _
  cases hm : MustNewConstMetric (NewDesc ⟨namespace_, [], ReplaceAllString key ['_']⟩ []
      noLables) ValueType.GaugeValue v [] with
  | none => rfl
  | some m =>
    show statLoop (ReplaceAllString key ['_']) v m stats = some m
    apply statLoop_no_match
    intro u hu
    rw [Bool.eq_false_iff]
    intro hsu
    exact hnone u (hperm.mem_iff.mp hu) ((HasSuffix_iff _ _).mp hsu)

/-- The outcome of `parseMetric` for any ordering of the stat names is its
outcome for the ordering of the source. -/
theorem parseMetricOver_perm {F : Type} (order : List Str)
    (hperm : order.Perm validStatNames) (key : Str) (v : F) :
    parseMetricOver order key v = parseMetricOver validStatNames key v := by
  by_cases hm : ∃ t ∈ validStatNames, t <:+ ReplaceAllString key ['_']
  · obtain ⟨t, ht, hend⟩ := hm
    rw [parseMetricOver_match order hperm key v t ht hend,
      parseMetricOver_match validStatNames (List.Perm.refl _) key v t ht hend]
  · have hnone : ∀ t ∈ validStatNames, ¬ t <:+ ReplaceAllString key ['_'] :=
      fun t ht hend => hm ⟨t, ht, hend⟩
    rw [parseMetricOver_no_match order hperm key v hnone,
      parseMetricOver_no_match validStatNames (List.Perm.refl _) key v hnone]

/-- A record `parseMetric` returns has the namespace of the program, no
subsystem, and a name made of the characters `rp` keeps. -/
theorem parseMetric_some_shape {F : Type} (key : Str) (v : F) (m : Metric F)
    (h : parseMetric key v = some m) :
    m.desc.fqName.ns = namespace_ ∧ m.desc.fqName.subsystem = [] ∧
      ∀ c ∈ m.desc.fqName.name, rpMatches c = false := by
  unfold parseMetric at h
  by_cases hm : ∃ t ∈ validStatNames, t <:+ ReplaceAllString key ['_']
  · obtain ⟨t, ht, hend⟩ := hm
    rw [parseMetricOver_match validStatNames (List.Perm.refl _) key v t ht hend] at h
    rw [MustNewConstMetric_some _ _ _ _ _ h]
    refine ⟨rfl, rfl, ?_⟩
    intro c hc
    exact ReplaceAllString_clean key c (Replace_mem _ _ (List.cons_ne_nil _ _) c hc)
  · have hnone : ∀ t ∈ validStatNames, ¬ t <:+ ReplaceAllString key ['_'] :=
      fun t ht hend => hm ⟨t, ht, hend⟩
    rw [parseMetricOver_no_match validStatNames (List.Perm.refl _) key v hnone] at h
    rw [MustNewConstMetric_some _ _ _ _ _ h]
    exact ⟨rfl, rfl, ReplaceAllString_clean key⟩

theorem ReplaceAllString_ne_nil (key : Str) (h : key ≠ []) : ReplaceAllString key ['_'] ≠ [] := by
  rw [ReplaceAllString_eq_map]
  intro hm
  exact h (List.map_eq_nil_iff.mp hm)

/-- When `parseMetric` returns a record: the key is not empty and, if its
sanitized form ends in a stat name `t`, removing `_t` leaves a non-empty
name. Otherwise `MustNewConstMetric` panics on the empty name. -/
theorem parseMetric_ne_none_iff {F : Type} (key : Str) (v : F) :
    parseMetric key v ≠ none ↔
      key ≠ [] ∧ ∀ t ∈ validStatNames, t <:+ ReplaceAllString key ['_'] →
        Replace (ReplaceAllString key ['_']) ('_' :: t) [] ≠ [] := by
  unfold parseMetric
  by_cases hm : ∃ t ∈ validStatNames, t <:+ ReplaceAllString key ['_']
  · obtain ⟨t, ht, hend⟩ := hm
    have hkey : key ≠ [] := by
      intro h
      rw [h] at hend
      exact validStatNames_ne_nil t ht (List.suffix_nil.mp hend)
    rw [parseMetricOver_match validStatNames (List.Perm.refl _) key v t ht hend]
    constructor
    · intro hsome
      refine ⟨hkey, ?_⟩
      intro u hu hend2 hnil
      have hut : u = t := validStatNames_unique_suffix _ u t hu ht hend2 hend
      subst hut
      rw [hnil] at hsome
      exact hsome (MustNewConstMetric_nil _ _ _ _)
    · intro h
      have hclean : ∀ c ∈ Replace (ReplaceAllString key ['_']) ('_' :: t) [],
          rpMatches c = false := fun c hc =>
        ReplaceAllString_clean key c (Replace_mem _ _ (List.cons_ne_nil _ _) c hc)
      rw [MustNewConstMetric_bucket _ (h.2 t ht hend) hclean]
      exact Option.some_ne_none _
  · have hnone : ∀ t ∈ validStatNames, ¬ t <:+ ReplaceAllString key ['_'] :=
      fun t ht hend => hm ⟨t, ht, hend⟩
    rw [parseMetricOver_no_match validStatNames (List.Perm.refl _) key v hnone]
    constructor
    · intro hsome
      refine ⟨?_, fun t ht hend => absurd hend (hnone t ht)⟩
      intro h
      rw [h] at hsome
      exact hsome (MustNewConstMetric_nil _ _ _ _)
    · intro h
      rw [MustNewConstMetric_plain _ (ReplaceAllString_ne_nil key h.1)
        (ReplaceAllString_clean key)]
      exact Option.some_ne_none _

/-! ## The name classifier -/

/-- Claim C1, as stated, fails. The sanitized key `a_count_b_count` ends in the
stat name `count`, yet the name of the record is `a_b`: the inner `_count` is
removed too, so the name is not the key without its last `_count`
(`a_count_b`). The sanitized key `discount` ends in `count` with no separator
before it, and the name of the record is `discount`, nothing removed. The
sanitized key `_count` ends in `count`, the name left is empty, and
`MustNewConstMetric` panics: no record is returned. -/
theorem parseMetric_suffix_removal_counterexample :
    "count".toList ∈ validStatNames ∧
    "count".toList <:+ ReplaceAllString "a_count_b_count".toList ['_'] ∧
    (parseMetric "a_count_b_count".toList ()).map (fun m => m.desc.fqName.name)
      = some "a_b".toList ∧
    (parseMetric "a_count_b_count".toList ()).map
        (fun m => m.desc.fqName.name ++ "_count".toList)
      ≠ some (ReplaceAllString "a_count_b_count".toList ['_']) ∧
    "count".toList <:+ ReplaceAllString "discount".toList ['_'] ∧
    (parseMetric "discount".toList ()).map (fun m => m.desc.fqName.name)
      = some "discount".toList ∧
    (parseMetric "discount".toList ()).map (fun m => m.desc.fqName.name ++ "_count".toList)
      ≠ some (ReplaceAllString "discount".toList ['_']) ∧
    "count".toList <:+ ReplaceAllString "_count".toList ['_'] ∧
    parseMetric "_count".toList () = none := by
  decide

/-- Claim C1, amended. When the sanitized key ends in `_` followed by a stat
name `t`, is longer than `_t`, and `_t` occurs nowhere else in it (not before
its last character), `parseMetric` returns a record, and the name it qualifies
with the namespace is the sanitized key with exactly that trailing `_t`
removed: putting `_t` back after the name gives the sanitized key. -/
theorem parseMetric_strips_trailing_suffix {F : Type} (key : Str) (v : F) (t : Str)
    (ht : t ∈ validStatNames)
    (hend : ('_' :: t) <:+ ReplaceAllString key ['_'])
    (hlong : ReplaceAllString key ['_'] ≠ '_' :: t)
    (honly : ¬ ('_' :: t) <:+: (ReplaceAllString key ['_']).dropLast) :
    ∃ m, parseMetric key v = some m ∧
      m.desc.fqName.ns = namespace_ ∧
      m.desc.fqName.subsystem = [] ∧
      m.desc.fqName.name ++ '_' :: t = ReplaceAllString key ['_'] := by
  obtain ⟨b, hb⟩ := hend
  have hsuf : t <:+ ReplaceAllString key ['_'] := ⟨b ++ ['_'], by rw [← hb]; simp⟩
  have hfree : ¬ ('_' :: t) <:+: b := by
    intro hin
    apply honly
    rw [← hb, List.dropLast_append_of_ne_nil _ (List.cons_ne_nil _ _)]
    exact hin.trans (List.prefix_append _ _).isInfix
  have hbne : b ≠ [] := by
    intro h
    apply hlong
    rw [← hb, h, List.nil_append]
  have hclean : ∀ c ∈ b, rpMatches c = false := fun c hc =>
    ReplaceAllString_clean key c (by rw [← hb]; exact List.mem_append_left _ hc)
  have hrec : parseMetric key v = _ :=
    parseMetricOver_match validStatNames (List.Perm.refl _) key v t ht hsuf
  rw [← hb, Replace_strip t b (validStatNames_no_underscore t ht) hfree,
    MustNewConstMetric_bucket b hbne hclean] at hrec
  exact ⟨_, hrec, rfl, rfl, hb⟩

/-- Claim C1, amended, at the key `foo_bar_p99`: the name is `foo_bar`. -/
theorem parseMetric_strips_trailing_suffix_witness :
    ∃ m, parseMetric "foo_bar_p99".toList (0 : Nat) = some m ∧
      m.desc.fqName.ns = namespace_ ∧
      m.desc.fqName.subsystem = [] ∧
      m.desc.fqName.name ++ '_' :: "p99".toList = ReplaceAllString "foo_bar_p99".toList ['_'] :=
  parseMetric_strips_trailing_suffix "foo_bar_p99".toList 0 "p99".toList
    (by decide) (by decide) (by decide) (by decide)

/-- Claim C2, as stated, fails. The raw keys `_count` and `.p99` end in a stat
name; the name left after the removal is empty, `MustNewConstMetric` panics and
`parseMetric` returns no record. -/
theorem parseMetric_bucket_label_counterexample :
    "count".toList ∈ validStatNames ∧ "count".toList <:+ "_count".toList ∧
    parseMetric "_count".toList () = none ∧
    "p99".toList ∈ validStatNames ∧ "p99".toList <:+ ".p99".toList ∧
    parseMetric ".p99".toList () = none := by
  decide

/-- Claim C2, amended. For every stat name `t` and every raw key that ends in
`t` and whose name, once `_t` is removed from the sanitized key, is not empty,
`parseMetric` returns a record; it has exactly one label, named `bucket`, with
value `t`, and carries the input value; a key ending in `p9999` does not get
the bucket `p99`. -/
theorem parseMetric_bucket_label {F : Type} (t : Str) (ht : t ∈ validStatNames)
    (key : Str) (v : F) (hend : t <:+ key)
    (hname : Replace (ReplaceAllString key ['_']) ('_' :: t) [] ≠ []) :
    ∃ m, parseMetric key v = some m ∧
      m.desc.variableLabels = ["bucket".toList] ∧
      m.labelValues = [t] ∧
      m.labels = [("bucket".toList, t)] ∧
      m.value = v ∧
      (t = "p9999".toList → m.labelValues ≠ ["p99".toList]) := by
  have hclean : ∀ c ∈ Replace (ReplaceAllString key ['_']) ('_' :: t) [],
      rpMatches c = false := fun c hc =>
    ReplaceAllString_clean key c (Replace_mem _ _ (List.cons_ne_nil _ _) c hc)
  have hrec : parseMetric key v = _ :=
    parseMetricOver_match validStatNames (List.Perm.refl _) key v t ht
      (sanitized_suffix key t ht hend)
  rw [MustNewConstMetric_bucket _ hname hclean] at hrec
  refine ⟨_, hrec, rfl, rfl, rfl, rfl, ?_⟩
  intro h
  subst h
  show (["p9999".toList] : List Str) ≠ ["p99".toList]
  decide

/-- Claim C2, amended, at the key `latency.p9999` with the value 7: the bucket
is `p9999`. -/
theorem parseMetric_bucket_label_witness :
    ∃ m, parseMetric "latency.p9999".toList (7 : Nat) = some m ∧
      m.desc.variableLabels = ["bucket".toList] ∧
      m.labelValues = ["p9999".toList] ∧
      m.labels = [("bucket".toList, "p9999".toList)] ∧
      m.value = 7 ∧
      ("p9999".toList = "p9999".toList → m.labelValues ≠ ["p99".toList]) :=
  parseMetric_bucket_label "p9999".toList (by decide) "latency.p9999".toList 7
    (by decide) (by decide)

/-- Claim C3, as stated, fails. The sanitized form of the empty key ends in
none of the twelve stat names; the first `MustNewConstMetric` panics on the
empty name and `parseMetric` returns no record. -/
theorem parseMetric_no_suffix_counterexample :
    (∀ t ∈ validStatNames, ¬ t <:+ ReplaceAllString "".toList ['_']) ∧
    parseMetric "".toList () = none := by
  decide

/-- Claim C3, amended. When the raw key is not empty and its sanitized form
ends in none of the twelve stat names, `parseMetric` returns a record; it has
no labels, carries the input value, and the name it qualifies with the
namespace is the key with every character outside `[a-zA-Z0-9_:]` replaced by
`_` and every other character kept in place. -/
theorem parseMetric_no_suffix {F : Type} (key : Str) (v : F) (hkey : key ≠ [])
    (hnone : ∀ t ∈ validStatNames, ¬ t <:+ ReplaceAllString key ['_']) :
    ∃ m, parseMetric key v = some m ∧
      m.desc.variableLabels = [] ∧
      m.labelValues = [] ∧
      m.labels = [] ∧
      m.value = v ∧
      m.desc.fqName.ns = namespace_ ∧
      m.desc.fqName.subsystem = [] ∧
      m.desc.fqName.name =
        key.map (fun c =>
          if ('a' ≤ c ∧ c ≤ 'z') ∨ ('A' ≤ c ∧ c ≤ 'Z') ∨ ('0' ≤ c ∧ c ≤ '9') ∨ c = '_' ∨ c = ':'
          then c else '_') := by
  have hrec : parseMetric key v = _ :=
    parseMetricOver_no_match validStatNames (List.Perm.refl _) key v hnone
  rw [MustNewConstMetric_plain _ (ReplaceAllString_ne_nil key hkey)
    (ReplaceAllString_clean key)] at hrec
  refine ⟨_, hrec, rfl, rfl, rfl, rfl, rfl, rfl, ?_⟩
  show ReplaceAllString key ['_'] = _
  rw [ReplaceAllString_eq_map]
  apply List.map_congr_left
  intro c _
  by_cases h : rpMatches c = false
  · have h2 := (rpMatches_eq_false_iff c).mp h
    rw [if_pos h2]; simp [h]
  · have h2 : ¬ _ := fun hh => h ((rpMatches_eq_false_iff c).mpr hh)
    rw [if_neg h2]; simp at h; simp [h]

/-- Claim C3, amended, at the key `active-connections` with the value 5: the
name is `active_connections` and there is no label. -/
theorem parseMetric_no_suffix_witness :
    ∃ m, parseMetric "active-connections".toList (5 : Nat) = some m ∧
      m.labels = [] ∧ m.value = 5 ∧
      m.desc.fqName.name = "active_connections".toList := by
  obtain ⟨m, hm, _, _, hl, hv, _, _, hn⟩ :=
    parseMetric_no_suffix "active-connections".toList (5 : Nat) (by decide) (by decide)
  exact ⟨m, hm, hl, hv, hn.trans (by decide)⟩

/-- Claim C4. Whatever the raw key, on both paths, every character of the name
that `parseMetric` qualifies with the namespace, and every character of the
qualified metric name, of the record it returns is in `[a-zA-Z0-9_:]`; so is
every character of the sanitized key, the provisional name. -/
theorem parseMetric_name_charset {F : Type} (key : Str) (v : F) :
    (∀ m, parseMetric key v = some m → ∀ c ∈ m.desc.fqName.name,
      ('a' ≤ c ∧ c ≤ 'z') ∨ ('A' ≤ c ∧ c ≤ 'Z') ∨ ('0' ≤ c ∧ c ≤ '9') ∨ c = '_' ∨ c = ':') ∧
    (∀ m, parseMetric key v = some m → ∀ c ∈ m.name,
      ('a' ≤ c ∧ c ≤ 'z') ∨ ('A' ≤ c ∧ c ≤ 'Z') ∨ ('0' ≤ c ∧ c ≤ '9') ∨ c = '_' ∨ c = ':') ∧
    (∀ c ∈ ReplaceAllString key ['_'],
      ('a' ≤ c ∧ c ≤ 'z') ∨ ('A' ≤ c ∧ c ≤ 'Z') ∨ ('0' ≤ c ∧ c ≤ '9') ∨ c = '_' ∨ c = ':') := by
  refine ⟨?_, ?_, fun c hc => (rpMatches_eq_false_iff c).mp (ReplaceAllString_clean key c hc)⟩
  · intro m hm c hc
    exact (rpMatches_eq_false_iff c).mp ((parseMetric_some_shape key v m hm).2.2 c hc)
  · intro m hm c hc
    have hq := parseMetric_some_shape key v m hm
    apply (rpMatches_eq_false_iff c).mp
    refine build_clean _ ?_ ?_ hq.2.2 c hc
    · rw [hq.1]; exact namespace_clean
    · rw [hq.2.1]; intro d hd; exact absurd hd (List.not_mem_nil _)

/-- Claim C4 at the key `ünï-cödé.p95` (suffix path) and at the key `a b`
(no suffix): a record is returned and its qualified name keeps to the
characters of the class. -/
theorem parseMetric_name_charset_witness :
    (parseMetric "ünï-cödé.p95".toList (1 : Nat)).map Metric.name
      = some "twitterserver__n__c_d_".toList ∧
    (parseMetric "a b".toList (1 : Nat)).map Metric.name = some "twitterserver_a_b".toList ∧
    (∀ c ∈ ReplaceAllString "ünï-cödé.p95".toList ['_'],
      ('a' ≤ c ∧ c ≤ 'z') ∨ ('A' ≤ c ∧ c ≤ 'Z') ∨ ('0' ≤ c ∧ c ≤ '9') ∨ c = '_' ∨ c = ':') :=
  ⟨by decide, by decide, (parseMetric_name_charset "ünï-cödé.p95".toList (1 : Nat)).2.2⟩

/-- Claim C10, as stated, fails. The sanitized form of the key `_count` is the
empty `b`, then `_`, then `count`, and the empty `b` does not contain `_count`;
`MustNewConstMetric` panics on the empty name and `parseMetric` returns no
record. -/
theorem parseMetric_base_and_bucket_counterexample :
    "count".toList ∈ validStatNames ∧
    ReplaceAllString "_count".toList ['_'] = [] ++ '_' :: "count".toList ∧
    ¬ ('_' :: "count".toList) <:+: ([] : Str) ∧
    parseMetric "_count".toList () = none := by
  decide

/-- Claim C10, amended. For a stat name `t`: when the sanitized key is a
non-empty `b`, then `_`, then `t`, and `b` does not contain `_t`, `parseMetric`
returns a record with the name `b` (before the namespace is put in front) and
the single label `bucket` with value `t`. The removal is not limited to the end
of the name: whenever the sanitized key ends in `t`, the first `_t` in it is
removed wherever it stands and the removal goes on in the rest of the name;
that is the name of the record when it is not empty. -/
theorem parseMetric_base_and_bucket {F : Type} (t : Str) (ht : t ∈ validStatNames)
    (key : Str) (v : F) :
    (∀ b : Str, b ≠ [] → ReplaceAllString key ['_'] = b ++ '_' :: t → ¬ ('_' :: t) <:+: b →
      ∃ m, parseMetric key v = some m ∧
        m.desc.fqName = ⟨namespace_, [], b⟩ ∧
        m.desc.variableLabels = ["bucket".toList] ∧
        m.labelValues = [t] ∧
        m.labels = [("bucket".toList, t)]) ∧
    (t <:+ ReplaceAllString key ['_'] →
      ∀ p q : Str, ReplaceAllString key ['_'] = p ++ ('_' :: t ++ q) → ¬ ('_' :: t) <:+: p →
        p ++ Replace q ('_' :: t) [] ≠ [] →
        ∃ m, parseMetric key v = some m ∧
          m.desc.fqName.name = p ++ Replace q ('_' :: t) []) := by
  have hclean : ∀ c ∈ Replace (ReplaceAllString key ['_']) ('_' :: t) [],
      rpMatches c = false := fun c hc =>
    ReplaceAllString_clean key c (Replace_mem _ _ (List.cons_ne_nil _ _) c hc)
  constructor
  · intro b hbne hs hb
    have hend : t <:+ ReplaceAllString key ['_'] := ⟨b ++ ['_'], by rw [hs]; simp⟩
    have hrec : parseMetric key v = _ :=
      parseMetricOver_match validStatNames (List.Perm.refl _) key v t ht hend
    have hrep : Replace (ReplaceAllString key ['_']) ('_' :: t) [] = b := by
      rw [hs, Replace_strip t b (validStatNames_no_underscore t ht) hb]
    rw [hrep] at hrec hclean
    rw [MustNewConstMetric_bucket b hbne hclean] at hrec
    exact ⟨_, hrec, rfl, rfl, rfl, rfl⟩
  · intro hend p q hs hp hne
    have hrec : parseMetric key v = _ :=
      parseMetricOver_match validStatNames (List.Perm.refl _) key v t ht hend
    have hrep : Replace (ReplaceAllString key ['_']) ('_' :: t) []
        = p ++ Replace q ('_' :: t) [] := by
      rw [hs, Replace_skip t p q (validStatNames_no_underscore t ht) hp]
    rw [hrep] at hrec hclean
    rw [MustNewConstMetric_bucket _ hne hclean] at hrec
    exact ⟨_, hrec, rfl⟩

/-- Claim C10, amended, at the key `foo.bar.p99`, whose sanitized form is
`foo_bar`, `_`, `p99`: name `foo_bar`, label `bucket` = `p99`; and at the key
`a_count_b_count`, where the first `_count` is removed after `a` and the
removal goes on in `_b_count`. -/
theorem parseMetric_base_and_bucket_witness :
    (∃ m, parseMetric "foo.bar.p99".toList (3 : Nat) = some m ∧
      m.desc.fqName = ⟨namespace_, [], "foo_bar".toList⟩ ∧
      m.desc.variableLabels = ["bucket".toList] ∧
      m.labelValues = ["p99".toList] ∧
      m.labels = [("bucket".toList, "p99".toList)]) ∧
    (∃ m, parseMetric "a_count_b_count".toList (3 : Nat) = some m ∧
      m.desc.fqName.name
        = "a".toList ++ Replace "_b_count".toList ('_' :: "count".toList) []) := by
  have h1 := (parseMetric_base_and_bucket "p99".toList (by decide) "foo.bar.p99".toList 3).1
    "foo_bar".toList (by decide) (by decide) (by decide)
  have h2 := (parseMetric_base_and_bucket "count".toList (by decide)
    "a_count_b_count".toList 3).2 (by decide) "a".toList "_b_count".toList (by decide)
    (by decide) (by decide)
  exact ⟨h1, h2⟩

/-! ## The scrape -/

/-- The range loop when `parseMetric` returns a record for every numeric
entry: every record is sent and there is no panic. -/
theorem rangeLoop_ok {F : Type} :
    ∀ (vars : List (Str × JSONValue F)) (ch : List (Metric F)),
      (∀ p ∈ vars, ∀ y, p.2 = JSONValue.number y → parseMetric p.1 y ≠ none) →
      rangeLoop vars ch = (ch ++ vars.filterMap (fun p =>
        match p.2 with
        | JSONValue.number y => parseMetric p.1 y
        | _ => none), false) := by
  intro vars
  induction vars with
  | nil => intro ch _; simp [rangeLoop]
  | cons p ps ih =>
    intro ch hok
    obtain ⟨name, x⟩ := p
    have hps : ∀ p ∈ ps, ∀ y, p.2 = JSONValue.number y → parseMetric p.1 y ≠ none :=
      fun p hp => hok p (List.mem_cons_of_mem _ hp)
    cases x with
    | number y =>
      cases hpm : parseMetric name y with
      | none => exact absurd hpm (hok (name, JSONValue.number y) (List.mem_cons_self _ _) y rfl)
      | some m => simp [rangeLoop, JSONValue.asFloat64, hpm, ih _ hps]
    | _ => simp [rangeLoop, JSONValue.asFloat64, ih _ hps]

/-- The metrics a scrape sends when `vars` is decoded and `parseMetric` returns
a record for every numeric entry. -/
theorem scrape_decoded_out {F : Type} (e : exporter) (start stop : Int)
    (vars : List (Str × JSONValue F))
    (hok : ∀ p ∈ vars, ∀ y, p.2 = JSONValue.number y → parseMetric p.1 y ≠ none) :
    (scrape e ⟨start, stop, Fetch.decoded vars⟩).sent = vars.filterMap (fun p =>
        match p.2 with
        | JSONValue.number y => parseMetric p.1 y
        | _ => none) ∧
    (scrape e ⟨start, stop, Fetch.decoded vars⟩).panicked = false := by
  simp [scrape, rangeLoop_ok vars [] hok]

/-- Claim C5, as stated, fails. For the snapshot of the claim the three records
have the metric names `twitterserver_requests`, `twitterserver_requests` and
`twitterserver_errors_total`: the namespace is put in front, and no record has
the metric name `requests` or `errors_total`. -/
theorem scrape_example_counterexample :
    ((scrape ⟨0, 0⟩ ⟨0, 0, Fetch.decoded
        [("requests_p99".toList, JSONValue.number (12.5 : ℚ)),
         ("requests_avg".toList, JSONValue.number (3.2 : ℚ)),
         ("errors total".toList, JSONValue.number (4 : ℚ)),
         ("status".toList, JSONValue.string "ok".toList)]⟩).sent.map Metric.name
      = ["twitterserver_requests".toList, "twitterserver_requests".toList,
         "twitterserver_errors_total".toList]) ∧
    "requests".toList ∉
      (scrape ⟨0, 0⟩ ⟨0, 0, Fetch.decoded
        [("requests_p99".toList, JSONValue.number (12.5 : ℚ)),
         ("requests_avg".toList, JSONValue.number (3.2 : ℚ)),
         ("errors total".toList, JSONValue.number (4 : ℚ)),
         ("status".toList, JSONValue.string "ok".toList)]⟩).sent.map Metric.name ∧
    "errors_total".toList ∉
      (scrape ⟨0, 0⟩ ⟨0, 0, Fetch.decoded
        [("requests_p99".toList, JSONValue.number (12.5 : ℚ)),
         ("requests_avg".toList, JSONValue.number (3.2 : ℚ)),
         ("errors total".toList, JSONValue.number (4 : ℚ)),
         ("status".toList, JSONValue.string "ok".toList)]⟩).sent.map Metric.name := by
  decide

/-- Claim C5, amended. Whatever the order in which the four entries of the
snapshot are visited, and whatever the exporter state, the scrape does not
panic and sends exactly three records, in some order: metric name
`twitterserver_requests` with the single label `bucket` = `p99` and the value
of `requests_p99`; metric name `twitterserver_requests` with the single label
`bucket` = `avg` and the value of `requests_avg`; metric name
`twitterserver_errors_total` with no label and the value of `errors total`.
Nothing is sent for `status`. -/
theorem scrape_example {F : Type} (e : exporter) (start stop : Int) (a b c : F)
    (vars : List (Str × JSONValue F))
    (hvars : vars.Perm
      [("requests_p99".toList, JSONValue.number a),
       ("requests_avg".toList, JSONValue.number b),
       ("errors total".toList, JSONValue.number c),
       ("status".toList, JSONValue.string "ok".toList)]) :
    ((scrape e ⟨start, stop, Fetch.decoded vars⟩).sent.map
        (fun m => (m.name, m.labels, m.value))).Perm
      [("twitterserver_requests".toList, [("bucket".toList, "p99".toList)], a),
       ("twitterserver_requests".toList, [("bucket".toList, "avg".toList)], b),
       ("twitterserver_errors_total".toList, [], c)] ∧
    (scrape e ⟨start, stop, Fetch.decoded vars⟩).panicked = false := by
  have h1 : ∀ x : F, parseMetric "requests_p99".toList x ≠ none := fun x h =>
    Option.noConfusion (h.symm.trans (rfl : parseMetric "requests_p99".toList x = some _))
  have h2 : ∀ x : F, parseMetric "requests_avg".toList x ≠ none := fun x h =>
    Option.noConfusion (h.symm.trans (rfl : parseMetric "requests_avg".toList x = some _))
  have h3 : ∀ x : F, parseMetric "errors total".toList x ≠ none := fun x h =>
    Option.noConfusion (h.symm.trans (rfl : parseMetric "errors total".toList x = some _))
  have hok : ∀ p ∈ vars, ∀ y, p.2 = JSONValue.number y → parseMetric p.1 y ≠ none := by
    intro p hp y hy
    have hmem := hvars.mem_iff.mp hp
    simp only [List.mem_cons, List.mem_singleton, List.not_mem_nil, or_false] at hmem
    rcases hmem with h | h | h | h
    · rw [h]; exact h1 y
    · rw [h]; exact h2 y
    · rw [h]; exact h3 y
    · rw [h] at hy; cases hy
  obtain ⟨hsent, hpanic⟩ := scrape_decoded_out e start stop vars hok
  refine ⟨?_, hpanic⟩
  rw [hsent]
  exact (hvars.filterMap _).map _

/-- Claim C5, amended, with the values 12.5, 3.2 and 4 and the entries visited
from the last to the first. -/
theorem scrape_example_witness :
    ((scrape ⟨0, 0⟩ ⟨10, 20, Fetch.decoded
        [("status".toList, JSONValue.string "ok".toList),
         ("errors total".toList, JSONValue.number (4 : ℚ)),
         ("requests_avg".toList, JSONValue.number (3.2 : ℚ)),
         ("requests_p99".toList, JSONValue.number (12.5 : ℚ))]⟩).sent.map
        (fun m => (m.name, m.labels, m.value))).Perm
      [("twitterserver_requests".toList, [("bucket".toList, "p99".toList)], (12.5 : ℚ)),
       ("twitterserver_requests".toList, [("bucket".toList, "avg".toList)], (3.2 : ℚ)),
       ("twitterserver_errors_total".toList, [], (4 : ℚ))] ∧
    (scrape ⟨0, 0⟩ ⟨10, 20, Fetch.decoded
        [("status".toList, JSONValue.string "ok".toList),
         ("errors total".toList, JSONValue.number (4 : ℚ)),
         ("requests_avg".toList, JSONValue.number (3.2 : ℚ)),
         ("requests_p99".toList, JSONValue.number (12.5 : ℚ))]⟩).panicked = false :=
  scrape_example ⟨0, 0⟩ 10 20 (12.5 : ℚ) (3.2 : ℚ) (4 : ℚ) _
    (List.reverse_perm
      [("requests_p99".toList, JSONValue.number (12.5 : ℚ)),
       ("requests_avg".toList, JSONValue.number (3.2 : ℚ)),
       ("errors total".toList, JSONValue.number (4 : ℚ)),
       ("status".toList, JSONValue.string "ok".toList)])

/-- Claim C6, as stated, fails. The decoded snapshot with the entries `""` = 1
and `up` = 2, visited in that order, has two numeric entries; `parseMetric`
panics on the empty key, and the scrape sends no record, neither for that entry
nor for `up`. -/
theorem scrape_decoded_counterexample :
    (scrape ⟨0, 0⟩ ⟨0, 0, Fetch.decoded
        [("".toList, JSONValue.number (1 : Nat)),
         ("up".toList, JSONValue.number 2)]⟩).sent = [] ∧
    (scrape ⟨0, 0⟩ ⟨0, 0, Fetch.decoded
        [("".toList, JSONValue.number (1 : Nat)),
         ("up".toList, JSONValue.number 2)]⟩).panicked = true ∧
    (parseMetric "up".toList (2 : Nat)).isSome = true := by
  decide

/-- Claim C6, amended. For every decoded snapshot in which `parseMetric`
returns a record for every numeric entry, in whatever order its entries are
visited, the scrape does not panic and sends exactly the records
`parseMetric name y` of the entries `(name, y)` whose value is a number, one
each and in the order of the visit; an entry whose value is a string, a bool,
null, an object or an array sends nothing (the output is the same without it);
the error counter is left as it was. -/
theorem scrape_decoded {F : Type} (e : exporter) (start stop : Int)
    (vars : List (Str × JSONValue F))
    (hok : ∀ p ∈ vars, ∀ y, p.2 = JSONValue.number y → parseMetric p.1 y ≠ none) :
    (scrape e ⟨start, stop, Fetch.decoded vars⟩).sent =
      vars.filterMap (fun p =>
        match p.2 with
        | JSONValue.number y => parseMetric p.1 y
        | _ => none) ∧
    (scrape e ⟨start, stop, Fetch.decoded vars⟩).sent.length =
      vars.countP (fun p =>
        match p.2 with
        | JSONValue.number _ => true
        | _ => false) ∧
    (∀ (pre post : List (Str × JSONValue F)) (name : Str) (x : JSONValue F),
      vars = pre ++ (name, x) :: post → (∀ y, x ≠ JSONValue.number y) →
      (scrape e ⟨start, stop, Fetch.decoded vars⟩).sent =
        (scrape e ⟨start, stop, Fetch.decoded (pre ++ post)⟩).sent) ∧
    (∀ (pre post : List (Str × JSONValue F)) (name : Str) (y : F),
      vars = pre ++ (name, JSONValue.number y) :: post →
      ∃ m, parseMetric name y = some m ∧
        (scrape e ⟨start, stop, Fetch.decoded vars⟩).sent =
          (scrape e ⟨start, stop, Fetch.decoded pre⟩).sent ++ m ::
            (scrape e ⟨start, stop, Fetch.decoded post⟩).sent) ∧
    (scrape e ⟨start, stop, Fetch.decoded vars⟩).state.errors = e.errors ∧
    (scrape e ⟨start, stop, Fetch.decoded vars⟩).panicked = false := by
  obtain ⟨hsent, hpanic⟩ := scrape_decoded_out e start stop vars hok
  refine ⟨hsent, ?_, ?_, ?_, rfl, hpanic⟩
  · rw [hsent]
    clear hsent hpanic
    induction vars with
    | nil => rfl
    | cons p ps ih =>
      have hps : ∀ p ∈ ps, ∀ y, p.2 = JSONValue.number y → parseMetric p.1 y ≠ none :=
        fun p hp => hok p (List.mem_cons_of_mem _ hp)
      obtain ⟨name, x⟩ := p
      cases x with
      | number y =>
        cases hpm : parseMetric name y with
        | none =>
          exact absurd hpm (hok (name, JSONValue.number y) (List.mem_cons_self _ _) y rfl)
        | some m => simp [List.filterMap_cons, List.countP_cons, hpm, ih hps]
      | _ => simp [List.filterMap_cons, List.countP_cons, ih hps]
  · intro pre post name x hv hx
    have hok2 : ∀ p ∈ pre ++ post, ∀ y, p.2 = JSONValue.number y → parseMetric p.1 y ≠ none := by
      intro p hp
      apply hok p
      rw [hv]
      rcases List.mem_append.mp hp with h | h
      · exact List.mem_append_left _ h
      · exact List.mem_append_right _ (List.mem_cons_of_mem _ h)
    rw [hsent, (scrape_decoded_out e start stop (pre ++ post) hok2).1, hv,
      List.filterMap_append, List.filterMap_append, List.filterMap_cons]
    cases x with
    | number y => exact absurd rfl (hx y)
    | _ => rfl
  · intro pre post name y hv
    have hpre : ∀ p ∈ pre, ∀ y, p.2 = JSONValue.number y → parseMetric p.1 y ≠ none := by
      intro p hp
      apply hok p
      rw [hv]
      exact List.mem_append_left _ hp
    have hpost : ∀ p ∈ post, ∀ y, p.2 = JSONValue.number y → parseMetric p.1 y ≠ none := by
      intro p hp
      apply hok p
      rw [hv]
      exact List.mem_append_right _ (List.mem_cons_of_mem _ hp)
    have hentry : parseMetric name y ≠ none := by
      apply hok (name, JSONValue.number y) _ y rfl
      rw [hv]
      exact List.mem_append_right _ (List.mem_cons_self _ _)
    obtain ⟨m, hm⟩ := Option.ne_none_iff_exists'.mp hentry
    refine ⟨m, hm, ?_⟩
    rw [hsent, (scrape_decoded_out e start stop pre hpre).1,
      (scrape_decoded_out e start stop post hpost).1, hv,
      List.filterMap_append, List.filterMap_cons]
    simp [hm]

/-- Claim C6, amended, at a snapshot with a string, two numbers and a null: the
two numeric entries are sent, in the order of the visit, and the error counter
stays at 4. -/
theorem scrape_decoded_witness :
    (scrape ⟨4, 0⟩ ⟨0, 9, Fetch.decoded
        [("status".toList, JSONValue.string "ok".toList),
         ("up".toList, JSONValue.number (1 : Nat)),
         ("x".toList, JSONValue.null),
         ("lat.p50".toList, JSONValue.number 8)]⟩).sent.map
        (fun m => (m.name, m.labels, m.value))
      = [("twitterserver_up".toList, [], 1),
         ("twitterserver_lat".toList, [("bucket".toList, "p50".toList)], 8)] ∧
    (scrape ⟨4, 0⟩ ⟨0, 9, Fetch.decoded
        [("status".toList, JSONValue.string "ok".toList),
         ("up".toList, JSONValue.number (1 : Nat)),
         ("x".toList, JSONValue.null),
         ("lat.p50".toList, JSONValue.number 8)]⟩).state.errors = 4 ∧
    (scrape ⟨4, 0⟩ ⟨0, 9, Fetch.decoded
        [("status".toList, JSONValue.string "ok".toList),
         ("up".toList, JSONValue.number (1 : Nat)),
         ("x".toList, JSONValue.null),
         ("lat.p50".toList, JSONValue.number 8)]⟩).panicked = false := by
  have h := scrape_decoded ⟨4, 0⟩ 0 9
    [("status".toList, JSONValue.string "ok".toList),
     ("up".toList, JSONValue.number (1 : Nat)),
     ("x".toList, JSONValue.null),
     ("lat.p50".toList, JSONValue.number 8)]
    (by
      intro p hp y hy
      simp only [List.mem_cons, List.mem_singleton, List.not_mem_nil, or_false] at hp
      rcases hp with h | h | h | h <;> subst h <;> cases hy <;> decide)
  refine ⟨?_, h.2.2.2.2.1, h.2.2.2.2.2⟩
  rw [h.1]
  decide

/-- Claim C7. Whatever the exporter state, a scrape whose request fails or
whose body does not decode sends no record and raises the error counter by
exactly one; the scrape after it, when `vars` is decoded, sends the records it
would have sent without the failure and leaves the error counter where the
failure put it. -/
theorem scrape_failure {F : Type} (e : exporter) (start stop start2 stop2 : Int)
    (f : Fetch F) (hf : f = Fetch.getFailed ∨ f = Fetch.decodeFailed)
    (vars : List (Str × JSONValue F)) :
    (scrape e ⟨start, stop, f⟩).sent = [] ∧
    (scrape e ⟨start, stop, f⟩).panicked = false ∧
    (scrape e ⟨start, stop, f⟩).state.errors = e.errors + 1 ∧
    (scrape (scrape e ⟨start, stop, f⟩).state ⟨start2, stop2, Fetch.decoded vars⟩).sent =
      (scrape e ⟨start2, stop2, Fetch.decoded vars⟩).sent ∧
    (scrape (scrape e ⟨start, stop, f⟩).state ⟨start2, stop2, Fetch.decoded vars⟩).panicked =
      (scrape e ⟨start2, stop2, Fetch.decoded vars⟩).panicked ∧
    (scrape (scrape e ⟨start, stop, f⟩).state ⟨start2, stop2, Fetch.decoded vars⟩).state.errors =
      e.errors + 1 := by
  rcases hf with h | h <;> subst h <;> exact ⟨rfl, rfl, rfl, rfl, rfl, rfl⟩

/-- Claim C7 at an exporter with 2 errors: a failed request, then a scrape that
decodes one numeric entry. -/
theorem scrape_failure_witness :
    (scrape ⟨2, 0⟩ (⟨100, 250, Fetch.getFailed⟩ : Run Nat)).sent = [] ∧
    (scrape ⟨2, 0⟩ (⟨100, 250, Fetch.getFailed⟩ : Run Nat)).panicked = false ∧
    (scrape ⟨2, 0⟩ (⟨100, 250, Fetch.getFailed⟩ : Run Nat)).state.errors = 2 + 1 ∧
    (scrape (scrape ⟨2, 0⟩ (⟨100, 250, Fetch.getFailed⟩ : Run Nat)).state
        ⟨300, 450, Fetch.decoded [("up".toList, JSONValue.number 1)]⟩).sent =
      (scrape ⟨2, 0⟩ ⟨300, 450, Fetch.decoded [("up".toList, JSONValue.number 1)]⟩).sent ∧
    (scrape (scrape ⟨2, 0⟩ (⟨100, 250, Fetch.getFailed⟩ : Run Nat)).state
        ⟨300, 450, Fetch.decoded [("up".toList, JSONValue.number 1)]⟩).panicked =
      (scrape ⟨2, 0⟩ ⟨300, 450, Fetch.decoded [("up".toList, JSONValue.number 1)]⟩).panicked ∧
    (scrape (scrape ⟨2, 0⟩ (⟨100, 250, Fetch.getFailed⟩ : Run Nat)).state
        ⟨300, 450, Fetch.decoded [("up".toList, JSONValue.number 1)]⟩).state.errors = 2 + 1 :=
  scrape_failure ⟨2, 0⟩ 100 250 300 450 Fetch.getFailed (Or.inl rfl)
    [("up".toList, JSONValue.number 1)]

/-! ## The order of the stat names -/

/-- Claim C9, as stated, fails. No string has two different stat names as
suffixes, and no reordering of the stat names makes `parseMetric` return a
different bucket label, or a different outcome, for any key. -/
theorem suffix_order_counterexample :
    (¬ ∃ (s t₁ t₂ : Str), t₁ ∈ validStatNames ∧ t₂ ∈ validStatNames ∧ t₁ ≠ t₂ ∧
        HasSuffix s t₁ = true ∧ HasSuffix s t₂ = true) ∧
    (¬ ∃ (order : List Str) (key : Str), order.Perm validStatNames ∧
        (parseMetricOver order key ()).map (fun m => m.labelValues)
          ≠ (parseMetric key ()).map (fun m => m.labelValues)) ∧
    (¬ ∃ (order : List Str) (key : Str), order.Perm validStatNames ∧
        parseMetricOver order key () ≠ parseMetric key ()) := by
  refine ⟨?_, ?_, ?_⟩
  · rintro ⟨s, t₁, t₂, h₁, h₂, hne, hs₁, hs₂⟩
    exact hne (validStatNames_unique_suffix s t₁ t₂ h₁ h₂
      ((HasSuffix_iff _ _).mp hs₁) ((HasSuffix_iff _ _).mp hs₂))
  · rintro ⟨order, key, hperm, hne⟩
    apply hne
    rw [parseMetricOver_perm order hperm key ()]
    rfl
  · rintro ⟨order, key, hperm, hne⟩
    exact hne (parseMetricOver_perm order hperm key ())

/-- Claim C9, amended. The order in which the stat names are checked does not
affect the result: checked in any other order, the same stat names make
`parseMetric` return the same record, or panic alike, for every key and
value. -/
theorem parseMetricOver_order_irrelevant {F : Type} (order : List Str)
    (hperm : order.Perm validStatNames) (key : Str) (v : F) :
    parseMetricOver order key v = parseMetric key v :=
  parseMetricOver_perm order hperm key v

/-- Claim C9, amended, with the stat names checked from the last to the first
(`p9999` and `p9990` before `p99`) at the key `latency_p9990`, where a record
is returned. -/
theorem parseMetricOver_order_irrelevant_witness :
    parseMetricOver validStatNames.reverse "latency_p9990".toList (1 : Nat)
      = parseMetric "latency_p9990".toList 1 ∧
    (parseMetric "latency_p9990".toList (1 : Nat)).map (fun m => m.labelValues)
      = some ["p9990".toList] :=
  ⟨parseMetricOver_order_irrelevant validStatNames.reverse (List.reverse_perm _)
    "latency_p9990".toList 1, by decide⟩

end TwitterServerExporter
